import Mathlib

/-!
Verification of the spectral divide-and-conquer (SDC) Schur solver in
`include/elemental/lapack-like/Schur/SDC.hpp`.

The embedding models the real instantiation of the templates (`F = Real`)
with exact rational arithmetic: a dense matrix is a function `ℕ → ℕ → ℚ`
together with an explicit order `n`, mirroring `A.Get(i,j)` / `A.Height()`.
External kernels that live outside the shown core (the matrix sign function,
QR factorizations, Haar random matrices, the base-case Schur solver, the
random sampler) are passed in as function parameters, following the
black-box contracts of the spec (§6).  Fallible behaviour of the source
(a `return;` that returns no value, out-of-bounds `std::vector` accesses)
is modelled with `Except`.
-/

namespace Elemental

/-- A dense matrix of field values, indexed like `A.Get(i,j)`; the order `n`
is carried separately, mirroring `A.Height()`. -/
abbrev Mat := ℕ → ℕ → ℚ

/-- `ValueInt<Real>`: a value/index pair as returned by `ComputePartition`. -/
structure ValueInt where
  value : ℚ
  index : ℤ
  deriving DecidableEq, Repr

/-- The ways an execution of the shown core can fail to produce a value.
`missingReturn` models the bare `return;` (returning no value from a
non-void function) in the sequential `ComputePartition`; `oobAccess`
models an out-of-bounds `std::vector` element access; `uninitPart` models
returning the default-initialized `ValueInt part;` without ever assigning
it; `fuelOut` is the artificial recursion-depth bound of the embedding of
the recursive driver; `precondViolation` is the error a fail-fast
precondition check would raise — it is present so that the absence of any
such check in the source can be stated. -/
inductive Err where
  | missingReturn
  | oobAccess
  | uninitPart
  | fuelOut
  | precondViolation
  deriving DecidableEq, Repr

/-- Whether an outcome is a fail-fast precondition report.  The source
contains no precondition check, so no execution of the core produces such
a report; this observer lets that be stated positively. -/
def precondReported {α : Type} : Except Err α → Bool
  | .error .precondViolation => true
  | _ => false

/-! ### ComputePartition, sequential overload (SDC.hpp lines 36–79) -/

/-- The larger of two rationals (`std::max`), written out so that it is
kernel-reducible. -/
def qmax (x y : ℚ) : ℚ := if x ≤ y then y else x

/-- `Abs(x)` for the real instantiation, written out so that it is
kernel-reducible. -/
def qabs (x : ℚ) : ℚ := if x ≤ 0 then -x else x

/-- `colSums[j] = Σ_{i=j+1}^{n-1} |A(i,j)|`, the sum of magnitudes strictly
below the diagonal of column `j` (the slot written by the first loop). -/
def colSumSeq (n : ℕ) (A : Mat) (j : ℕ) : ℚ :=
  ∑ i in Finset.Ico (j + 1) n, qabs (A i j)

/-- Slot `k` of `rowSums`: the loop `for i=1; i<n-1` writes
`rowSums[i-1] = Σ_{j<i} |A(i,j)|`, so slot `k` holds that sum when
`k + 1 < n - 1` (i.e. `k + 2 < n`) and keeps its initial `0` otherwise. -/
def rowSumSeq (n : ℕ) (A : Mat) (k : ℕ) : ℚ :=
  if k + 2 < n then ∑ j in Finset.range (k + 1), qabs (A (k + 1) j) else 0

/-- The running scores: `norms[0] = colSums[0]`,
`norms[j] = norms[j-1] + colSums[j] - rowSums[j-1]`. -/
def normsF (colS rowS : ℕ → ℚ) : ℕ → ℚ
  | 0 => colS 0
  | j + 1 => normsF colS rowS j + colS (j + 1) - rowS j

/-- The minimum scan of the source: starting from
`part.value = norms[0], part.index = 1`, each `j` with
`norms[j] < part.value` (strict) updates the pair to `(norms[j], j+1)`.
`bestScan f m` is the state after processing `j = 0, …, m`. -/
def bestScan (f : ℕ → ℚ) : ℕ → ℚ × ℤ
  | 0 => (f 0, 1)
  | j + 1 =>
    if f (j + 1) < (bestScan f j).1 then (f (j + 1), (j : ℤ) + 2)
    else bestScan f j

/-- Sequential `ComputePartition( Matrix<F>& A )`.
For `n = 0` the source builds the sentinel `part` but then executes a bare
`return;`, returning no value (modelled as `missingReturn`).  For `n = 1`
the vectors `colSums`/`norms` have length `n - 1 = 0`, so
`norms[0] = colSums[0]` is an out-of-bounds access (modelled as
`oobAccess`).  For `n ≥ 2` every access is in bounds. -/
def ComputePartitionSeq (n : ℕ) (A : Mat) : Except Err ValueInt :=
  if n = 0 then .error .missingReturn
  else if n = 1 then .error .oobAccess
  else
    let b := bestScan (normsF (colSumSeq n A) (rowSumSeq n A)) (n - 2)
    .ok ⟨b.1, b.2⟩

/-! ### ComputePartition, distributed overload (SDC.hpp lines 85–148)

Each process of an `r × c` grid owns the entries whose row index is
congruent to its column-shift mod `r` and whose column index is congruent
to its row-shift mod `c` (elemental's `[MC,MR]` element distribution with
`colStride = r`, `rowStride = c`).  The local double loop accumulates, for
each owned entry with `j < n-1` and `i > j`, into `colSums[j]` and
`rowSums[i-1]`; `mpi::AllReduce` then sums the vectors over all processes.
We model the all-reduced slot contents directly as the sum over the grid. -/

/-- All-reduced `colSums[j]` of the distributed overload: the first
conjunct group is the source's nested guards `j < n-1` and `i > j`, the
second is ownership of the entry by process `(a, b)`. -/
def colSumDist (r c n : ℕ) (A : Mat) (j : ℕ) : ℚ :=
  ∑ a in Finset.range r, ∑ b in Finset.range c, ∑ i in Finset.range n,
    if (j < n - 1 ∧ j < i) ∧ i % r = a ∧ j % c = b then qabs (A i j) else 0

/-- All-reduced `rowSums[k]` of the distributed overload: entries with
`i = k+1`, `i > j`, `j < n-1`, summed over owning processes (column loop
outer, row loop inner as in the source). -/
def rowSumDist (r c n : ℕ) (A : Mat) (k : ℕ) : ℚ :=
  ∑ a in Finset.range r, ∑ b in Finset.range c,
    ∑ j in Finset.range n, ∑ i in Finset.range n,
      if (j < n - 1 ∧ j < i ∧ i = k + 1) ∧ i % r = a ∧ j % c = b
      then qabs (A i j) else 0

/-- Distributed `ComputePartition( DistMatrix<F>& A )` on an `r × c`
process grid.  For `n = 0` this overload returns the sentinel
`(value, index) = (-1, -1)`.  For `n = 1` the redundant scan performs the
same out-of-bounds `norms[0] = colSums[0]` access as the sequential
overload.  The scan itself is identical to the sequential one. -/
def ComputePartitionDist (r c n : ℕ) (A : Mat) : Except Err ValueInt :=
  if n = 0 then .ok ⟨-1, -1⟩
  else if n = 1 then .error .oobAccess
  else
    let b := bestScan (normsF (colSumDist r c n A) (rowSumDist r c n A)) (n - 2)
    .ok ⟨b.1, b.2⟩

/-! ### Dense kernels of the spec's §6 that have exact definitions -/

/-- `OneNorm(A)`: maximum column sum of magnitudes (spec §6 norm kernel). -/
def oneNormM (n : ℕ) (A : Mat) : ℚ :=
  ((List.range n).map (fun j => ∑ i in Finset.range n, qabs (A i j))).foldr qmax 0

/-- `InfinityNorm(A)`: maximum row sum of magnitudes (spec §6 norm kernel). -/
def infNormM (n : ℕ) (A : Mat) : ℚ :=
  ((List.range n).map (fun i => ∑ j in Finset.range n, qabs (A i j))).foldr qmax 0

/-- `Trace(A)` (spec §6). -/
def traceM (n : ℕ) (A : Mat) : ℚ := ∑ i in Finset.range n, A i i

/-- `UpdateDiagonal( A, s )`: add `s` to each diagonal entry. -/
def updateDiag (n : ℕ) (s : ℚ) (A : Mat) : Mat :=
  fun i j => if i = j ∧ i < n then A i j + s else A i j

/-- `SetDiagonal( A, s )`: overwrite each diagonal entry with `s`. -/
def setDiagAll (n : ℕ) (s : ℚ) (A : Mat) : Mat :=
  fun i j => if i = j ∧ i < n then s else A i j

/-- `A.SetDiagonal( d )`: overwrite the diagonal with the vector `d`. -/
def setDiagVec (n : ℕ) (d : ℕ → ℚ) (A : Mat) : Mat :=
  fun i j => if i = j ∧ i < n then d i else A i j

/-- `Scale( c, A )`. -/
def scaleM (c : ℚ) (A : Mat) : Mat := fun i j => c * A i j

/-- `Gemm`: plain dense product; only the inner dimension matters for the
function model. -/
def matMul (inner : ℕ) (X Y : Mat) : Mat :=
  fun i j => ∑ t in Finset.range inner, X i t * Y t j

/-- `ADJOINT` application for the real instantiation: conjugation is
trivial on `ℚ`, so the conjugate-transpose is the transpose. -/
def conjT (X : Mat) : Mat := fun i j => X j i

/-! ### External black-box kernels (spec §6), passed as parameters.

The sign function, QR factorizations and Haar random matrices live outside
the shown core; the spec treats them as correct black boxes.  A `Kernels`
value supplies, per call site of the source, the result each black box
produces.  The per-iteration randomness of `RandomizedSignDivide` is
captured by indexing the Haar draw with the iteration counter. -/
structure Kernels where
  /-- `Sign( G )`: the matrix sign function of `G` (external `Sign.hpp`). -/
  signO : Mat → Mat
  /-- The explicit unitary `Q`-factor of the (unpivoted) QR factorization
  of its argument, as produced by `ExpandPackedReflectors` after
  `elem::QR( G, t )`. -/
  qrQ : Mat → Mat
  /-- The packed (Householder vectors + `R`) form that `elem::QR( G, t )`
  leaves in `G` when the reflectors are not expanded. -/
  qrPacked : Mat → Mat
  /-- `ImplicitHaar( V, t, n )` at loop iteration `it`: the Haar-random
  orthogonal matrix applied from the right by `qr::ApplyQ(RIGHT,NORMAL)`. -/
  haarQ : ℕ → Mat
  /-- The `Q`-factor of the pivoted QR `elem::QR( G, t, p )` used by
  `SignDivide`. -/
  pivQ : Mat → Mat
  /-- The packed form the pivoted QR leaves in `G`. -/
  pivPacked : Mat → Mat

/-- The spectral projector built in place from the generator:
`G := sgn(G); G := (G + I)/2` (SDC.hpp lines 162–166 / 252–257). -/
def projector (K : Kernels) (n : ℕ) (G : Mat) : Mat :=
  scaleM (1 / 2) (updateDiag n 1 (K.signO G))

/-! ### RandomizedSignDivide (SDC.hpp lines 237–294) -/

/-- Iteration `it` of the loop overwrites `G := S` and computes the RURV:
`qr::ApplyQ(RIGHT, NORMAL, V, t, G)` multiplies by the Haar matrix on the
right, giving the matrix that is then QR-factored. -/
def rurvG (K : Kernels) (n : ℕ) (S : Mat) (it : ℕ) : Mat :=
  matMul n S (K.haarQ it)

/-- The unitary factor of iteration `it`'s randomized factorization. -/
def rurvQ (K : Kernels) (n : ℕ) (S : Mat) (it : ℕ) : Mat :=
  K.qrQ (rurvG K n S it)

/-- The similarity transform of iteration `it`: `A := Q^H A Q`.  Both
branches of the source compute this same product — the `returnQ` branch
via two `Gemm`s with the expanded `Q`, the other via `qr::ApplyQ` from the
left (adjoint) and right (normal). -/
def rurvA (K : Kernels) (n : ℕ) (S : Mat) (it : ℕ) (A : Mat) : Mat :=
  matMul n (conjT (rurvQ K n S it)) (matMul n A (rurvQ K n S it))

/-- What iteration `it` leaves in `G`: the expanded unitary factor when
`returnQ`, otherwise the packed QR form. -/
def rurvGout (K : Kernels) (n : ℕ) (returnQ : Bool) (S : Mat) (it : ℕ) : Mat :=
  if returnQ then rurvQ K n S it else K.qrPacked (rurvG K n S it)

/-- The outputs of `SignDivide`/`RandomizedSignDivide`: the transformed
working matrix, the final contents of `G`, and the normalized partition
value/index pair. -/
structure DivideOut where
  A : Mat
  G : Mat
  value : ℚ
  index : ℤ

/-- The retry loop of `RandomizedSignDivide` (lines 259–292), recursing on
the remaining iteration count (`fuel = maxIts - it`).  The first component
collects, per performed attempt, the copy `V = A` saved immediately before
that attempt's similarity transform; a failed non-final attempt restores
`A` from it (`A = V`) before retrying.  `fuel = 0` models falling out of
the loop with `part` still default-initialized (only possible when
`maxIts ≤ 0`). -/
def rsdGo (K : Kernels) (n : ℕ) (returnQ : Bool) (oneA relTol : ℚ)
    (S : Mat) : Mat → ℕ → ℕ → List Mat × Except Err DivideOut
  | _, _, 0 => ([], .error .uninitPart)
  | A, it, fuel + 1 =>
    let V := A
    let A' := rurvA K n S it A
    match ComputePartitionSeq n A' with
    | .error e => ([V], .error e)
    | .ok part =>
      let v := part.value / oneA
      if v ≤ relTol ∨ fuel = 0 then
        ([V], .ok ⟨A', rurvGout K n returnQ S it, v, part.index⟩)
      else
        let rest := rsdGo K n returnQ oneA relTol S V (it + 1) fuel
        (V :: rest.1, rest.2)

/-- The tolerance defaulting of lines 249–250: a caller-supplied `0`
(also the default argument) becomes `50 · n · machineEpsilon`. -/
def rsdRelTol (n : ℕ) (relTol eps : ℚ) : ℚ :=
  if relTol = 0 then 50 * n * eps else relTol

/-- `RandomizedSignDivide( A, G, returnQ, maxIts, relTol )` with the
machine epsilon `eps` made explicit.  `oneA` is the 1-norm of the
untransformed `A`, computed once before the loop. -/
def RandomizedSignDivide (K : Kernels) (n : ℕ) (returnQ : Bool)
    (maxIts : ℕ) (relTol eps : ℚ) (A G : Mat) :
    List Mat × Except Err DivideOut :=
  rsdGo K n returnQ (oneNormM n A) (rsdRelTol n relTol eps)
    (projector K n G) A 0 maxIts

/-! ### SignDivide (SDC.hpp lines 152–192) -/

/-- `SignDivide( A, G, returnQ )`: projector from `G`, pivoted QR, the
similarity transform `A := Q^H A Q`, then the normalized partition. -/
def SignDivide (K : Kernels) (n : ℕ) (returnQ : Bool) (A G : Mat) :
    Except Err DivideOut :=
  let S := projector K n G
  let Q := K.pivQ S
  let oneA := oneNormM n A
  let A' := matMul n (conjT Q) (matMul n A Q)
  match ComputePartitionSeq n A' with
  | .error e => .error e
  | .ok part => .ok ⟨A', if returnQ then Q else K.pivPacked S, part.value / oneA, part.index⟩

/-! ### SpectralDivide, real sequential overloads (lines 357–384, 420–447) -/

/-- `SpectralDivide( Matrix<Real>& A )`: Gershgorin center, off-diagonal
infinity norm measured by temporarily zeroing the diagonal and restoring
it, a sampled shift (`sample center radius` models
`SampleBall<Real>(center, radius)`), generator `G := A` plus the shift on
the diagonal, then `RandomizedSignDivide` with the default `maxIts = 10`,
`relTol = 0`. -/
def SpectralDivide (K : Kernels) (sample : ℚ → ℚ → ℚ) (n : ℕ) (eps : ℚ)
    (A : Mat) : List Mat × Except Err DivideOut :=
  let gershCenter := traceM n A / n
  let d : ℕ → ℚ := fun i => A i i
  let A1 := setDiagAll n 0 A
  let offDiagInf := infNormM n A1
  let A2 := setDiagVec n d A1
  let shift := sample (-gershCenter) (1 / 1000 * offDiagInf)
  let G := updateDiag n shift A2
  RandomizedSignDivide K n false 10 0 eps A2 G

/-- `SpectralDivide( Matrix<Real>& A, Matrix<Real>& Q )`: as above, but the
caller's `Q` is overwritten with the generator (`Q = A; UpdateDiagonal`)
and `RandomizedSignDivide` is invoked with `returnQ = true`.  The entry
value `Qin` of `Q` is dead on arrival: the first thing the source does
with `Q` is the complete overwrite `Q = A`. -/
def SpectralDivideQ (K : Kernels) (sample : ℚ → ℚ → ℚ) (n : ℕ) (eps : ℚ)
    (A _Qin : Mat) : List Mat × Except Err DivideOut :=
  let gershCenter := traceM n A / n
  let d : ℕ → ℚ := fun i => A i i
  let A1 := setDiagAll n 0 A
  let offDiagInf := infNormM n A1
  let A2 := setDiagVec n d A1
  let shift := sample (-gershCenter) (1 / 1000 * offDiagInf)
  let Q1 := updateDiag n shift A2
  RandomizedSignDivide K n true 10 0 eps A2 Q1

/-! ### SDC, eigenvalue-only sequential overload (lines 615–642) -/

/-- The in-place effect of the two recursive calls on the diagonal
quadrants obtained from `PartitionDownDiagonal` at `k`: entries of the
top-left and bottom-right quadrant views are replaced, the off-diagonal
quadrants are untouched. -/
def assembleDiag (k : ℕ) (TL BR A : Mat) : Mat :=
  fun i j =>
    if i < k ∧ j < k then TL i j
    else if k ≤ i ∧ k ≤ j then BR (i - k) (j - k)
    else A i j

/-- The bottom-right quadrant view at split `k`. -/
def shiftBlock (k : ℕ) (A : Mat) : Mat := fun i j => A (i + k) (j + k)

/-- `SDC( Matrix<F>& A, Int cutoff )` (eigenvalues only), with the
base-case solver `schur::QR` as the black box `base` and an explicit
recursion-depth bound `fuel` (the source recursion strictly shrinks `n`
whenever the partition index is valid, so `fuel = n + 1` suffices; the
bound never fires in those runs).  The source contains no precondition
check of any kind: execution goes straight to the `n ≤ cutoff` test and
then either the base case or the split. -/
def sdcGo (K : Kernels) (sample : ℚ → ℚ → ℚ) (eps : ℚ)
    (base : ℕ → Mat → Mat) (cutoff : ℤ) : ℕ → ℕ → Mat → Except Err Mat
  | 0, _, _ => .error .fuelOut
  | fuel + 1, n, A =>
    if (n : ℤ) ≤ cutoff then .ok (base n A)
    else
      match (SpectralDivide K sample n eps A).2 with
      | .error e => .error e
      | .ok part =>
        let k := part.index.toNat
        match sdcGo K sample eps base cutoff fuel k part.A,
              sdcGo K sample eps base cutoff fuel (n - k) (shiftBlock k part.A) with
        | .ok TL, .ok BR => .ok (assembleDiag k TL BR part.A)
        | .error e, _ => .error e
        | _, .error e => .error e

/-- `SDC` with the default recursion bound. -/
def SDC (K : Kernels) (sample : ℚ → ℚ → ℚ) (eps : ℚ)
    (base : ℕ → Mat → Mat) (cutoff : ℤ) (n : ℕ) (A : Mat) : Except Err Mat :=
  sdcGo K sample eps base cutoff (n + 1) n A

/-! ### The stitch step of the Schur-vector-forming SDC
(sequential lines 670–684, distributed lines 750–767)

The stitch is field-generic in the source (`F` real or complex), so it is
embedded over an arbitrary commutative ring `R` with the conjugation map
`conj` passed explicitly (`conj = id` for the real instantiation).  The
blocks `QL : n×k`, `QR : n×m`, `ATR : k×m`, `ZT : k×k`, `ZB : m×m`
(`m = n−k`) are pairwise disjoint views, hence separate function values
here. -/

/-- `Gemm` over `R`; only the inner dimension matters. -/
def mulR (R : Type) [CommRing R] (inner : ℕ) (X Y : ℕ → ℕ → R) : ℕ → ℕ → R :=
  fun i j => ∑ t in Finset.range inner, X i t * Y t j

/-- `ADJOINT` operand: conjugate-transpose with explicit conjugation. -/
def adjR (R : Type) (conj : R → R) (X : ℕ → ℕ → R) : ℕ → ℕ → R :=
  fun i j => conj (X j i)

/-- The sequential stitch (lines 670–684).  `ZT`, `ZB` are the Schur-vector
accumulators returned by the recursive calls on the top-left and
bottom-right quadrants (the source reuses one variable `Z` for both).  The
register `G` buffers each old value exactly as in the source:
`G = QL; Gemm(N,N,1,G,Z,QL); if formATR Gemm(ADJ,N,1,Z,ATR,G);`
(second recursion) `if formATR Gemm(N,N,1,G,Z,ATR); G = QR;
Gemm(N,N,1,G,Z,QR)`. -/
def stitchSeq (R : Type) [CommRing R] (conj : R → R) (k m : ℕ)
    (formATR : Bool) (QL QR ATR ZT ZB : ℕ → ℕ → R) :
    (ℕ → ℕ → R) × (ℕ → ℕ → R) × (ℕ → ℕ → R) :=
  let G := QL
  let QL1 := mulR R k G ZT
  let G1 := if formATR then mulR R k (adjR R conj ZT) ATR else G
  let ATR1 := if formATR then mulR R m G1 ZB else ATR
  let G2 := QR
  let QR1 := mulR R m G2 ZB
  (QL1, QR1, ATR1)

/-- The distributed stitch (lines 750–767): both recursions first, then
`G = QL; Gemm(N,N,1,G,ZT,QL); G = QR; Gemm(N,N,1,G,ZB,QR);
if formATR { Gemm(ADJ,N,1,ZT,ATR,G); Gemm(N,N,1,G,ZB,ATR) }`. -/
def stitchDist (R : Type) [CommRing R] (conj : R → R) (k m : ℕ)
    (formATR : Bool) (QL QR ATR ZT ZB : ℕ → ℕ → R) :
    (ℕ → ℕ → R) × (ℕ → ℕ → R) × (ℕ → ℕ → R) :=
  let G := QL
  let QL1 := mulR R k G ZT
  let G1 := QR
  let QR1 := mulR R m G1 ZB
  let G2 := if formATR then mulR R k (adjR R conj ZT) ATR else G1
  let ATR1 := if formATR then mulR R m G2 ZB else ATR
  (QL1, QR1, ATR1)

/-! ### The complex-field SpectralDivide generator construction
(lines 386–418)

Exact complex rationals.  Only the operations the generator construction
needs are defined (pointwise, avoiding any algebraic-structure instance);
the complex magnitude `|·|` used by `InfinityNorm` involves a square root,
so it is passed as the black box `absO`. -/

/-- A complex number with rational real and imaginary parts. -/
structure QC where
  re : ℚ
  im : ℚ
  deriving DecidableEq, Repr

/-- A complex dense matrix. -/
abbrev MatC := ℕ → ℕ → QC

/-- Complex addition. -/
def qcAdd (x y : QC) : QC := ⟨x.re + y.re, x.im + y.im⟩

/-- Complex multiplication. -/
def qcMul (x y : QC) : QC :=
  ⟨x.re * y.re - x.im * y.im, x.re * y.im + x.im * y.re⟩

/-- Complex negation. -/
def qcNeg (x : QC) : QC := ⟨-x.re, -x.im⟩

/-- `Trace(A)` for the complex field. -/
def traceC (n : ℕ) (A : MatC) : QC :=
  ⟨∑ i in Finset.range n, (A i i).re, ∑ i in Finset.range n, (A i i).im⟩

/-- Division of a complex scalar by the (promoted) integer `n`. -/
def qcDivNat (z : QC) (n : ℕ) : QC := ⟨z.re / n, z.im / n⟩

/-- `SetDiagonal( A, s )`, complex. -/
def setDiagAllC (n : ℕ) (s : QC) (A : MatC) : MatC :=
  fun i j => if i = j ∧ i < n then s else A i j

/-- `A.SetDiagonal( d )`, complex. -/
def setDiagVecC (n : ℕ) (d : ℕ → QC) (A : MatC) : MatC :=
  fun i j => if i = j ∧ i < n then d i else A i j

/-- `UpdateDiagonal( A, s )`, complex. -/
def updateDiagC (n : ℕ) (s : QC) (A : MatC) : MatC :=
  fun i j => if i = j ∧ i < n then qcAdd (A i j) s else A i j

/-- `Scale( g, A )`, complex. -/
def scaleC (g : QC) (A : MatC) : MatC := fun i j => qcMul g (A i j)

/-- `InfinityNorm(A)` for the complex field, with the magnitude black box
`absO`. -/
def infNormC (absO : QC → ℚ) (n : ℕ) (A : MatC) : ℚ :=
  ((List.range n).map (fun i => ∑ j in Finset.range n, absO (A i j))).foldr qmax 0

/-- `SpectralDivide( Matrix<Complex<Real>>& A )`, lines 394–410: the part
of the complex overload up to and including the construction of the
generator `G` (the subsequent call is
`RandomizedSignDivide( A, G )` on the first returned component).
`sampleC center radius` models `SampleBall<F>(center, radius)`; `gamma`
is the unit-magnitude rotation `F(Cos(angle), Sin(angle))` whose angle is
drawn by the external `Uniform<Real>(0, 2π)`.  Returns the pair
`(A after the diagonal restore, G)`. -/
def SpectralDivideCGen (absO : QC → ℚ) (sampleC : QC → ℚ → QC) (gamma : QC)
    (n : ℕ) (A : MatC) : MatC × MatC :=
  let gershCenter := qcDivNat (traceC n A) n
  let d : ℕ → QC := fun i => A i i
  let A1 := setDiagAllC n ⟨0, 0⟩ A
  let offDiagInf := infNormC absO n A1
  let A2 := setDiagVecC n d A1
  let shift := sampleC (qcNeg gershCenter) (1 / 1000 * offDiagInf)
  let G := scaleC gamma (updateDiagC n shift A2)
  (A2, G)

/-! ### Derived descriptions used in the theorem statements -/

/-- The partition value for `n ≥ 2` (the `.ok` payload of
`ComputePartitionSeq`). -/
def partValue (n : ℕ) (M : Mat) : ℚ :=
  (bestScan (normsF (colSumSeq n M) (rowSumSeq n M)) (n - 2)).1

/-- The partition index for `n ≥ 2`. -/
def partIndex (n : ℕ) (M : Mat) : ℤ :=
  (bestScan (normsF (colSumSeq n M) (rowSumSeq n M)) (n - 2)).2

/-- The normalized value attempt `it` of `RandomizedSignDivide` achieves,
starting (as every attempt does) from the untransformed `A`. -/
def attemptVal (K : Kernels) (n : ℕ) (oneA : ℚ) (S A : Mat) (it : ℕ) : ℚ :=
  partValue n (rurvA K n S it A) / oneA

/-- The full output attempt `it` produces when it is the one the loop
stops at. -/
def attemptOut (K : Kernels) (n : ℕ) (returnQ : Bool) (oneA : ℚ)
    (S A : Mat) (it : ℕ) : DivideOut :=
  ⟨rurvA K n S it A, rurvGout K n returnQ S it,
    attemptVal K n oneA S A it, partIndex n (rurvA K n S it A)⟩

/-- The shift argument pair `SpectralDivide` hands to `SampleBall`:
center `-trace(A)/n`, radius `0.001 ×` the off-diagonal infinity norm. -/
def sdShift (sample : ℚ → ℚ → ℚ) (n : ℕ) (A : Mat) : ℚ :=
  sample (-(traceM n A / n)) (1 / 1000 * infNormM n (setDiagAll n 0 A))

/-- The generator `SpectralDivide` builds: a copy of `A` with the sampled
shift added to its diagonal. -/
def sdGenerator (sample : ℚ → ℚ → ℚ) (n : ℕ) (A : Mat) : Mat :=
  updateDiag n (sdShift sample n A) A

/-- The sum of `|A i k|` over the bottom-left coupling block produced by
splitting at index `j + 1`: rows `i ≥ j + 1`, columns `k ≤ j`. -/
def blockSum (n : ℕ) (A : Mat) (j : ℕ) : ℚ :=
  ∑ i in Finset.Ico (j + 1) n, ∑ k in Finset.range (j + 1), qabs (A i k)

/-! ### Concrete instances used by witnesses and counterexamples -/

/-- The (unbounded) identity matrix pattern. -/
def eyeM : Mat := fun i j => if i = j then 1 else 0

/-- A trivial kernel assignment: the sign function and packed forms are
the identity, every `Q`-factor and Haar draw is the identity matrix. -/
def K0 : Kernels := ⟨id, fun _ => eyeM, id, fun _ => eyeM, fun _ => eyeM, id⟩

/-- A degenerate sampler: always returns the ball's center. -/
def sample0 : ℚ → ℚ → ℚ := fun c _ => c

/-- A concrete machine epsilon. -/
def eps0 : ℚ := 1 / 1000

/-- A base-case solver that leaves the matrix unchanged. -/
def base0 : ℕ → Mat → Mat := fun _ A => A

/-- A concrete 1×1 matrix, `[[1]]`. -/
def oneByOne : Mat := fun i j => if i = 0 ∧ j = 0 then 1 else 0

/-- A concrete 2×2 diagonal matrix, `diag(1, 2)`. -/
def diagA : Mat := fun i j =>
  if i = 0 ∧ j = 0 then 1 else if i = 1 ∧ j = 1 then 2 else 0

/-- A concrete 2×2 matrix with a nonzero bottom-left entry. -/
def matW : Mat := fun i j => if i = 1 ∧ j = 0 then 3 else 0

/-- A concrete dense matrix pattern with distinct entries. -/
def matV : Mat := fun i j => (i : ℚ) + 2 * (j : ℚ) + 1

/-! ## Helper lemmas -/

/-- Associativity of the embedded `Gemm` across compatible inner
dimensions. -/
lemma mulR_mulR (R : Type) [CommRing R] (k m : ℕ) (X Y Z : ℕ → ℕ → R) :
    mulR R m (mulR R k X Y) Z = mulR R k X (mulR R m Y Z) := by
  funext i j
  simp only [mulR, Finset.sum_mul, Finset.mul_sum, mul_assoc]
  exact Finset.sum_comm

/-- Restoring the saved diagonal after zeroing it reproduces the original
matrix exactly. -/
lemma setDiag_restore (n : ℕ) (A : Mat) :
    setDiagVec n (fun i => A i i) (setDiagAll n 0 A) = A := by
  funext i j
  simp only [setDiagVec, setDiagAll]
  by_cases h : i = j ∧ i < n
  · rw [if_pos h, h.1]
  · rw [if_neg h, if_neg h]

/-- The complex-field version of the diagonal restore. -/
lemma setDiagC_restore (n : ℕ) (A : MatC) :
    setDiagVecC n (fun i => A i i) (setDiagAllC n ⟨0, 0⟩ A) = A := by
  funext i j
  simp only [setDiagVecC, setDiagAllC]
  by_cases h : i = j ∧ i < n
  · rw [if_pos h, h.1]
  · rw [if_neg h, if_neg h]

/-- The scan's value is a lower bound on every processed score. -/
lemma bestScan_le (f : ℕ → ℚ) : ∀ m, ∀ j, j ≤ m → (bestScan f m).1 ≤ f j := by
  intro m
  induction m with
  | zero =>
    intro j hj
    have h0 : j = 0 := Nat.le_zero.mp hj
    subst h0
    simp [bestScan]
  | succ m ih =>
    intro j hj
    by_cases hlt : f (m + 1) < (bestScan f m).1
    · simp only [bestScan, if_pos hlt]
      rcases Nat.lt_succ_iff_lt_or_eq.mp (Nat.lt_succ_of_le hj) with h | h
      · exact le_of_lt (lt_of_lt_of_le hlt (ih j (Nat.lt_succ_iff.mp h)))
      · subst h; exact le_refl _
    · simp only [bestScan, if_neg hlt]
      rcases Nat.lt_succ_iff_lt_or_eq.mp (Nat.lt_succ_of_le hj) with h | h
      · exact ih j (Nat.lt_succ_iff.mp h)
      · subst h; exact le_of_not_lt hlt

/-- The scan returns the score and (1-based, earliest) position of some
processed index. -/
lemma bestScan_mem (f : ℕ → ℚ) : ∀ m, ∃ j, j ≤ m ∧ bestScan f m = (f j, (j : ℤ) + 1) := by
  intro m
  induction m with
  | zero => exact ⟨0, le_refl 0, by norm_num [bestScan]⟩
  | succ m ih =>
    by_cases hlt : f (m + 1) < (bestScan f m).1
    · refine ⟨m + 1, le_refl _, ?_⟩
      simp only [bestScan, if_pos hlt]
      norm_num
      ring
    · obtain ⟨j, hj, he⟩ := ih
      refine ⟨j, le_trans hj (Nat.le_succ m), ?_⟩
      simp only [bestScan, if_neg hlt]
      exact he

/-- For `n ≥ 2` the sequential `ComputePartition` succeeds with the scan's
value/index pair. -/
lemma cp_ok (n : ℕ) (M : Mat) (hn : 2 ≤ n) :
    ComputePartitionSeq n M = .ok ⟨partValue n M, partIndex n M⟩ := by
  unfold ComputePartitionSeq partValue partIndex
  rw [if_neg (by omega), if_neg (by omega)]

/-- For `n ≥ 2` the distributed `ComputePartition` succeeds with its scan's
value/index pair. -/
lemma cpDist_ok (r c n : ℕ) (M : Mat) (hn : 2 ≤ n) :
    ComputePartitionDist r c n M =
      .ok ⟨(bestScan (normsF (colSumDist r c n M) (rowSumDist r c n M)) (n - 2)).1,
           (bestScan (normsF (colSumDist r c n M) (rowSumDist r c n M)) (n - 2)).2⟩ := by
  unfold ComputePartitionDist
  rw [if_neg (by omega), if_neg (by omega)]

/-- The running score equals the bottom-left coupling-block sum. -/
lemma normsF_eq_blockSum (n : ℕ) (A : Mat) :
    ∀ j, j < n - 1 → normsF (colSumSeq n A) (rowSumSeq n A) j = blockSum n A j := by
  intro j
  induction j with
  | zero =>
    intro _
    simp only [normsF, blockSum, colSumSeq]
    refine Finset.sum_congr rfl ?_
    intro i _
    rw [Finset.sum_range_one]
  | succ j ih =>
    intro hsucc
    have hj : j < n - 1 := by omega
    have hguard : j + 2 < n := by omega
    have e2 : blockSum n A (j + 1) =
        (∑ i in Finset.Ico (j + 2) n, ∑ k in Finset.range (j + 1), qabs (A i k)) +
          colSumSeq n A (j + 1) := by
      simp only [blockSum, colSumSeq, Finset.sum_range_succ]
      rw [Finset.sum_add_distrib]
    simp only [normsF, ih hj]
    rw [rowSumSeq, if_pos hguard, e2, blockSum,
      Finset.sum_eq_sum_Ico_succ_bot (show j + 1 < n by omega)]
    ring

/-- C1: for every matrix of order `n ≥ 2` both overloads of
`ComputePartition` return an index in `[1, n-1]`; but for `n = 1` both
overloads access element `0` of the empty vectors `colSums`/`norms`
instead of returning a sentinel, and for `n = 0` the sequential overload
executes a bare `return;` that returns no value — only the distributed
overload returns the documented sentinel `(-1, -1)`. -/
theorem ComputePartition_validity :
    (∀ n : ℕ, ∀ A : Mat, 2 ≤ n → ∃ v : ℚ, ∃ i : ℤ,
      ComputePartitionSeq n A = .ok ⟨v, i⟩ ∧ 1 ≤ i ∧ i ≤ (n : ℤ) - 1) ∧
    (∀ r c n : ℕ, ∀ A : Mat, 2 ≤ n → ∃ v : ℚ, ∃ i : ℤ,
      ComputePartitionDist r c n A = .ok ⟨v, i⟩ ∧ 1 ≤ i ∧ i ≤ (n : ℤ) - 1) ∧
    ComputePartitionSeq 1 oneByOne = .error .oobAccess ∧
    ComputePartitionDist 1 1 1 oneByOne = .error .oobAccess ∧
    ComputePartitionSeq 0 oneByOne = .error .missingReturn ∧
    ComputePartitionDist 1 1 0 oneByOne = .ok ⟨-1, -1⟩ := by
  refine ⟨?_, ?_, rfl, rfl, rfl, rfl⟩
  · intro n A hn
    obtain ⟨j, hj, he⟩ :=
      bestScan_mem (normsF (colSumSeq n A) (rowSumSeq n A)) (n - 2)
    have h2 : partIndex n A = (j : ℤ) + 1 := by rw [partIndex, he]
    refine ⟨partValue n A, partIndex n A, cp_ok n A hn, ?_, ?_⟩ <;> rw [h2] <;> omega
  · intro r c n A hn
    obtain ⟨j, hj, he⟩ :=
      bestScan_mem (normsF (colSumDist r c n A) (rowSumDist r c n A)) (n - 2)
    refine ⟨_, _, cpDist_ok r c n A hn, ?_, ?_⟩ <;> (rw [he]; simp; try omega)

/-- Witness for C1: the `n ≥ 2` conjunct applied at a concrete 2×2 matrix. -/
theorem ComputePartition_validity_witness :
    ∃ v : ℚ, ∃ i : ℤ, ComputePartitionSeq 2 matW = .ok ⟨v, i⟩ ∧
      1 ≤ i ∧ i ≤ (2 : ℤ) - 1 :=
  ComputePartition_validity.1 2 matW (by norm_num)

/-- C4: the running score `norms[j]` equals the sum of `|A i k|` over the
bottom-left coupling block (`i ≥ j+1`, `k ≤ j`) created by splitting at
index `j+1`, and consequently the value `ComputePartition` returns is the
minimum of these block sums with its index a minimizing split position. -/
theorem ComputePartition_blockSum_minimization (n : ℕ) (A : Mat) (hn : 2 ≤ n) :
    (∀ j, j < n - 1 → normsF (colSumSeq n A) (rowSumSeq n A) j = blockSum n A j) ∧
    ∃ v : ℚ, ∃ i : ℤ, ComputePartitionSeq n A = .ok ⟨v, i⟩ ∧
      (∀ j, j < n - 1 → v ≤ blockSum n A j) ∧
      ∃ jm : ℕ, jm < n - 1 ∧ i = (jm : ℤ) + 1 ∧ v = blockSum n A jm := by
  refine ⟨normsF_eq_blockSum n A,
    partValue n A, partIndex n A, cp_ok n A hn, ?_, ?_⟩
  · intro j hj
    have hb := bestScan_le (normsF (colSumSeq n A) (rowSumSeq n A)) (n - 2) j (by omega)
    rw [normsF_eq_blockSum n A j hj] at hb
    exact hb
  · obtain ⟨j, hj, he⟩ :=
      bestScan_mem (normsF (colSumSeq n A) (rowSumSeq n A)) (n - 2)
    refine ⟨j, by omega, by rw [partIndex, he], ?_⟩
    rw [partValue, he]
    exact normsF_eq_blockSum n A j (by omega)

/-- Witness for C4 at a concrete 2×2 matrix. -/
theorem ComputePartition_blockSum_minimization_witness :
    (∀ j, j < 2 - 1 → normsF (colSumSeq 2 matW) (rowSumSeq 2 matW) j = blockSum 2 matW j) ∧
    ∃ v : ℚ, ∃ i : ℤ, ComputePartitionSeq 2 matW = .ok ⟨v, i⟩ ∧
      (∀ j, j < 2 - 1 → v ≤ blockSum 2 matW j) ∧
      ∃ jm : ℕ, jm < 2 - 1 ∧ i = (jm : ℤ) + 1 ∧ v = blockSum 2 matW jm :=
  ComputePartition_blockSum_minimization 2 matW (by norm_num)

/-- Rotating the entry sum out of the two grid sums. -/
lemma sum_rotate (r c p : ℕ) (F : ℕ → ℕ → ℕ → ℚ) :
    (∑ a in Finset.range r, ∑ b in Finset.range c, ∑ x in Finset.range p, F a b x)
      = ∑ x in Finset.range p, ∑ a in Finset.range r,
          ∑ b in Finset.range c, F a b x := by
  have h1 : ∀ a ∈ Finset.range r,
      (∑ b in Finset.range c, ∑ x in Finset.range p, F a b x)
        = ∑ x in Finset.range p, ∑ b in Finset.range c, F a b x :=
    fun a _ => Finset.sum_comm
  rw [Finset.sum_congr rfl h1, Finset.sum_comm]

/-- Rotating a double entry sum out of the two grid sums. -/
lemma sum_rotate2 (r c p q : ℕ) (F : ℕ → ℕ → ℕ → ℕ → ℚ) :
    (∑ a in Finset.range r, ∑ b in Finset.range c,
        ∑ x in Finset.range p, ∑ y in Finset.range q, F a b x y)
      = ∑ x in Finset.range p, ∑ y in Finset.range q,
          ∑ a in Finset.range r, ∑ b in Finset.range c, F a b x y := by
  have h1 : ∀ a ∈ Finset.range r,
      (∑ b in Finset.range c, ∑ x in Finset.range p, ∑ y in Finset.range q, F a b x y)
        = ∑ x in Finset.range p, ∑ b in Finset.range c, ∑ y in Finset.range q, F a b x y :=
    fun a _ => Finset.sum_comm
  rw [Finset.sum_congr rfl h1, Finset.sum_comm]
  refine Finset.sum_congr rfl ?_
  intro x _
  exact sum_rotate r c q (fun a b y => F a b x y)

/-- Each matrix entry is owned by exactly one process of a nonempty grid:
summing its guarded contribution over the grid yields it once. -/
lemma grid_collapse (r c : ℕ) (hr : 1 ≤ r) (hc : 1 ≤ c) (p q : ℕ)
    (P : Prop) [Decidable P] (x : ℚ) :
    (∑ a in Finset.range r, ∑ b in Finset.range c,
      if P ∧ p % r = a ∧ q % c = b then x else 0) = if P then x else 0 := by
  by_cases hP : P
  · simp only [hP, true_and]
    have ha : ∀ a ∈ Finset.range r,
        (∑ b in Finset.range c, if p % r = a ∧ q % c = b then x else 0)
          = if p % r = a then x else 0 := by
      intro a _
      by_cases h1 : p % r = a
      · simp only [h1, true_and]
        rw [Finset.sum_ite_eq (Finset.range c) (q % c) (fun _ => x)]
        simp [Nat.mod_lt q hc]
      · simp [h1]
    rw [Finset.sum_congr rfl ha,
      Finset.sum_ite_eq (Finset.range r) (p % r) (fun _ => x)]
    simp [Nat.mod_lt p hr]
  · simp [hP]

/-- On a nonempty grid the all-reduced distributed column sums agree with
the sequential ones on every slot the scan reads. -/
lemma colSumDist_eq (r c n : ℕ) (A : Mat) (hr : 1 ≤ r) (hc : 1 ≤ c)
    (j : ℕ) (hj : j < n - 1) :
    colSumDist r c n A j = colSumSeq n A j := by
  unfold colSumDist colSumSeq
  rw [sum_rotate r c n
    (fun a b i => if (j < n - 1 ∧ j < i) ∧ i % r = a ∧ j % c = b then qabs (A i j) else 0)]
  have h2 : ∀ i ∈ Finset.range n,
      (∑ a in Finset.range r, ∑ b in Finset.range c,
        if (j < n - 1 ∧ j < i) ∧ i % r = a ∧ j % c = b then qabs (A i j) else 0)
        = if j < i then qabs (A i j) else 0 := by
    intro i _
    rw [grid_collapse r c hr hc i j (j < n - 1 ∧ j < i) (qabs (A i j))]
    by_cases h : j < i
    · rw [if_pos ⟨hj, h⟩, if_pos h]
    · rw [if_neg (fun hh => h hh.2), if_neg h]
  rw [Finset.sum_congr rfl h2, Finset.sum_ite, Finset.sum_const_zero, add_zero]
  have h3 : Finset.filter (fun i => j < i) (Finset.range n) = Finset.Ico (j + 1) n := by
    ext i
    simp only [Finset.mem_filter, Finset.mem_range, Finset.mem_Ico]
    omega
  rw [h3]

/-- On a nonempty grid the all-reduced distributed row sums agree with the
sequential ones on every slot the scan reads (`k + 2 < n`). -/
lemma rowSumDist_eq (r c n : ℕ) (A : Mat) (hr : 1 ≤ r) (hc : 1 ≤ c)
    (k : ℕ) (hk : k + 2 < n) :
    rowSumDist r c n A k = rowSumSeq n A k := by
  unfold rowSumDist rowSumSeq
  rw [if_pos hk,
    sum_rotate2 r c n n
      (fun a b j i =>
        if (j < n - 1 ∧ j < i ∧ i = k + 1) ∧ i % r = a ∧ j % c = b then qabs (A i j) else 0)]
  have h2 : ∀ j ∈ Finset.range n,
      (∑ i in Finset.range n, ∑ a in Finset.range r, ∑ b in Finset.range c,
        if (j < n - 1 ∧ j < i ∧ i = k + 1) ∧ i % r = a ∧ j % c = b then qabs (A i j) else 0)
        = if j < k + 1 then qabs (A (k + 1) j) else 0 := by
    intro j _
    have h4 : ∀ i ∈ Finset.range n,
        (∑ a in Finset.range r, ∑ b in Finset.range c,
          if (j < n - 1 ∧ j < i ∧ i = k + 1) ∧ i % r = a ∧ j % c = b then qabs (A i j) else 0)
          = if i = k + 1 then (if j < k + 1 then qabs (A (k + 1) j) else 0) else 0 := by
      intro i _
      rw [grid_collapse r c hr hc i j (j < n - 1 ∧ j < i ∧ i = k + 1) (qabs (A i j))]
      by_cases hik : i = k + 1
      · subst hik
        by_cases hjk : j < k + 1
        · rw [if_pos ⟨by omega, hjk, rfl⟩, if_pos rfl, if_pos hjk]
        · rw [if_neg (fun hh => hjk hh.2.1), if_pos rfl, if_neg hjk]
      · rw [if_neg (fun hh => hik hh.2.2), if_neg hik]
    rw [Finset.sum_congr rfl h4,
      Finset.sum_ite_eq' (Finset.range n) (k + 1)
        (fun _ => if j < k + 1 then qabs (A (k + 1) j) else 0),
      if_pos (Finset.mem_range.mpr (by omega))]
  rw [Finset.sum_congr rfl h2, Finset.sum_ite, Finset.sum_const_zero, add_zero]
  have h3 : Finset.filter (fun j => j < k + 1) (Finset.range n) = Finset.range (k + 1) := by
    ext j
    simp only [Finset.mem_filter, Finset.mem_range]
    omega
  rw [h3]

/-- The running score depends only on the sums the scan reads. -/
lemma normsF_congr (cs cs' rs rs' : ℕ → ℚ) :
    ∀ m, (∀ i, i ≤ m → cs i = cs' i) → (∀ i, i < m → rs i = rs' i) →
      normsF cs rs m = normsF cs' rs' m := by
  intro m
  induction m with
  | zero =>
    intro hcs _
    simp only [normsF]
    exact hcs 0 (le_refl 0)
  | succ m ih =>
    intro hcs hrs
    simp only [normsF]
    rw [ih (fun i hi => hcs i (le_trans hi (Nat.le_succ m))) (fun i hi => hrs i (by omega)),
      hcs (m + 1) (le_refl _), hrs m (by omega)]

/-- The minimum scan depends only on the scores it reads. -/
lemma bestScan_congr (f g : ℕ → ℚ) :
    ∀ m, (∀ i, i ≤ m → f i = g i) → bestScan f m = bestScan g m := by
  intro m
  induction m with
  | zero =>
    intro h
    simp only [bestScan, h 0 (le_refl 0)]
  | succ m ih =>
    intro h
    have hm := ih (fun i hi => h i (le_trans hi (Nat.le_succ m)))
    simp only [bestScan, hm, h (m + 1) (le_refl _)]

/-- C8: for every matrix of order `n ≥ 1` on a nonempty process grid the
distributed overload of `ComputePartition` (local accumulation, all-reduce,
redundant scan) returns exactly the sequential overload's result; at
`n = 0` the two diverge because the sequential overload's bare `return;`
returns no value while the distributed one returns the sentinel. -/
theorem ComputePartition_dist_eq_seq :
    (∀ r c n : ℕ, ∀ A : Mat, 1 ≤ r → 1 ≤ c → 1 ≤ n →
      ComputePartitionDist r c n A = ComputePartitionSeq n A) ∧
    ComputePartitionDist 1 1 0 oneByOne = .ok ⟨-1, -1⟩ ∧
    ComputePartitionSeq 0 oneByOne = .error .missingReturn := by
  refine ⟨?_, rfl, rfl⟩
  intro r c n A hr hc hn
  by_cases h1 : n = 1
  · subst h1; rfl
  · have hn2 : 2 ≤ n := by omega
    rw [cp_ok n A hn2, cpDist_ok r c n A hn2]
    have hbs : bestScan (normsF (colSumDist r c n A) (rowSumDist r c n A)) (n - 2)
        = bestScan (normsF (colSumSeq n A) (rowSumSeq n A)) (n - 2) := by
      apply bestScan_congr
      intro i hi
      apply normsF_congr
      · intro t ht
        exact colSumDist_eq r c n A hr hc t (by omega)
      · intro t ht
        exact rowSumDist_eq r c n A hr hc t (by omega)
    rw [hbs]
    rfl

/-- Witness for C8 at a 1×1 grid and a concrete 2×2 matrix. -/
theorem ComputePartition_dist_eq_seq_witness :
    ComputePartitionDist 1 1 2 matW = ComputePartitionSeq 2 matW :=
  ComputePartition_dist_eq_seq.1 1 1 2 matW (by norm_num) (by norm_num) (by norm_num)

/-- One unfolding of the retry loop for `n ≥ 2` (the partition always
succeeds): the attempt is kept when it meets tolerance or is the last
one, otherwise `A` is restored and the loop continues. -/
lemma rsdGo_step (K : Kernels) (n : ℕ) (returnQ : Bool) (oneA relTol : ℚ)
    (S A : Mat) (it fuel : ℕ) (hn : 2 ≤ n) :
    rsdGo K n returnQ oneA relTol S A it (fuel + 1) =
      if attemptVal K n oneA S A it ≤ relTol ∨ fuel = 0 then
        ([A], .ok (attemptOut K n returnQ oneA S A it))
      else
        (A :: (rsdGo K n returnQ oneA relTol S A (it + 1) fuel).1,
          (rsdGo K n returnQ oneA relTol S A (it + 1) fuel).2) := by
  simp only [rsdGo]
  rw [cp_ok n (rurvA K n S it A) hn]
  rfl

/-- If the first attempt meeting tolerance is attempt `it + k` (with `k`
attempts of headroom), the loop performs exactly `k + 1` attempts, each
started from the same `A`, and returns that attempt's output. -/
lemma rsdGo_found (K : Kernels) (n : ℕ) (returnQ : Bool) (oneA relTol : ℚ)
    (S A : Mat) (hn : 2 ≤ n) :
    ∀ k it fuel, k < fuel →
      (∀ j, j < k → ¬ attemptVal K n oneA S A (it + j) ≤ relTol) →
      attemptVal K n oneA S A (it + k) ≤ relTol →
      rsdGo K n returnQ oneA relTol S A it fuel =
        (List.replicate (k + 1) A, .ok (attemptOut K n returnQ oneA S A (it + k))) := by
  intro k
  induction k with
  | zero =>
    intro it fuel hk _ hgood
    obtain ⟨f, rfl⟩ : ∃ f, fuel = f + 1 := ⟨fuel - 1, by omega⟩
    have hgood0 : attemptVal K n oneA S A it ≤ relTol := by simpa using hgood
    rw [rsdGo_step K n returnQ oneA relTol S A it f hn, if_pos (Or.inl hgood0)]
    rfl
  | succ k ih =>
    intro it fuel hk hbad hgood
    obtain ⟨f, rfl⟩ : ∃ f, fuel = f + 1 := ⟨fuel - 1, by omega⟩
    rw [rsdGo_step K n returnQ oneA relTol S A it f hn]
    have hb0 : ¬ attemptVal K n oneA S A it ≤ relTol := by
      have h0 := hbad 0 (Nat.succ_pos k)
      simpa using h0
    have hf : ¬ f = 0 := by omega
    rw [if_neg (not_or.mpr ⟨hb0, hf⟩)]
    have hrec := ih (it + 1) f (by omega)
      (fun j hj => by
        rw [show it + 1 + j = it + (j + 1) from by omega]
        exact hbad (j + 1) (by omega))
      (by
        rw [show it + 1 + k = it + (k + 1) from by omega]
        exact hgood)
    rw [hrec, show it + 1 + k = it + (k + 1) from by omega]
    rfl

/-- If no attempt in the remaining budget meets tolerance, the loop
performs exactly `fuel` attempts and returns the last attempt's output
without raising an error. -/
lemma rsdGo_exhaust (K : Kernels) (n : ℕ) (returnQ : Bool) (oneA relTol : ℚ)
    (S A : Mat) (hn : 2 ≤ n) :
    ∀ fuel it, 1 ≤ fuel →
      (∀ j, j < fuel → ¬ attemptVal K n oneA S A (it + j) ≤ relTol) →
      rsdGo K n returnQ oneA relTol S A it fuel =
        (List.replicate fuel A,
          .ok (attemptOut K n returnQ oneA S A (it + (fuel - 1)))) := by
  intro fuel
  induction fuel with
  | zero => intro it h; omega
  | succ f ih =>
    intro it _ hbad
    rw [rsdGo_step K n returnQ oneA relTol S A it f hn]
    by_cases hf : f = 0
    · subst hf
      rw [if_pos (Or.inr rfl)]
      rfl
    · have hb0 : ¬ attemptVal K n oneA S A it ≤ relTol := by
        simpa using hbad 0 (by omega)
      rw [if_neg (not_or.mpr ⟨hb0, hf⟩)]
      have hrec := ih (it + 1) (by omega)
        (fun j hj => by
          rw [show it + 1 + j = it + (j + 1) from by omega]
          exact hbad (j + 1) (by omega))
      rw [hrec, show it + 1 + (f - 1) = it + (f + 1 - 1) from by omega]
      rfl

/-- Every copy recorded in the loop's trace — the `V = A` saved
immediately before each attempt's similarity transform — is the original
matrix: failed attempts restore `A` exactly, so every retry starts from
the same untransformed `A`. -/
lemma rsdGo_trace (K : Kernels) (n : ℕ) (returnQ : Bool) (oneA relTol : ℚ)
    (S : Mat) :
    ∀ fuel A it M, M ∈ (rsdGo K n returnQ oneA relTol S A it fuel).1 → M = A := by
  intro fuel
  induction fuel with
  | zero =>
    intro A it M hM
    simp [rsdGo] at hM
  | succ f ih =>
    intro A it M hM
    cases hcp : ComputePartitionSeq n (rurvA K n S it A) with
    | error e =>
      simp only [rsdGo, hcp] at hM
      simpa using hM
    | ok part =>
      by_cases hv : part.value / oneA ≤ relTol ∨ f = 0
      · simp only [rsdGo, hcp, if_pos hv] at hM
        simpa using hM
      · simp only [rsdGo, hcp, if_neg hv, List.mem_cons] at hM
        rcases hM with h | h
        · exact h
        · exact ih A (it + 1) M h

/-- The loop performs at least one attempt whenever `maxIts ≥ 1`: the
trace of saved copies is nonempty. -/
lemma rsdGo_len_pos (K : Kernels) (n : ℕ) (returnQ : Bool) (oneA relTol : ℚ)
    (S : Mat) (fuel : ℕ) (A : Mat) (it : ℕ) (hf : 1 ≤ fuel) :
    1 ≤ (rsdGo K n returnQ oneA relTol S A it fuel).1.length := by
  obtain ⟨f, rfl⟩ : ∃ f, fuel = f + 1 := ⟨fuel - 1, by omega⟩
  cases hcp : ComputePartitionSeq n (rurvA K n S it A) with
  | error e => simp [rsdGo, hcp]
  | ok part =>
    by_cases hv : part.value / oneA ≤ relTol ∨ f = 0
    · simp [rsdGo, hcp, hv]
    · simp [rsdGo, hcp, hv]

/-- `RandomizedSignDivide` when the first attempt meeting tolerance is
attempt `k < maxIts`. -/
lemma rsd_found (K : Kernels) (n : ℕ) (returnQ : Bool) (maxIts : ℕ)
    (relTol eps : ℚ) (A G : Mat) (hn : 2 ≤ n) (k : ℕ) (hk : k < maxIts)
    (hbad : ∀ j, j < k →
      ¬ attemptVal K n (oneNormM n A) (projector K n G) A j ≤ rsdRelTol n relTol eps)
    (hgood : attemptVal K n (oneNormM n A) (projector K n G) A k ≤ rsdRelTol n relTol eps) :
    RandomizedSignDivide K n returnQ maxIts relTol eps A G =
      (List.replicate (k + 1) A,
        .ok (attemptOut K n returnQ (oneNormM n A) (projector K n G) A k)) := by
  unfold RandomizedSignDivide
  have h := rsdGo_found K n returnQ (oneNormM n A) (rsdRelTol n relTol eps)
    (projector K n G) A hn k 0 maxIts hk
    (fun j hj => by rw [Nat.zero_add]; exact hbad j hj)
    (by rw [Nat.zero_add]; exact hgood)
  rw [Nat.zero_add] at h
  exact h

/-- `RandomizedSignDivide` when no attempt meets tolerance: exactly
`maxIts` attempts and the last attempt's output, with no error. -/
lemma rsd_exhaust (K : Kernels) (n : ℕ) (returnQ : Bool) (maxIts : ℕ)
    (relTol eps : ℚ) (A G : Mat) (hn : 2 ≤ n) (hits : 1 ≤ maxIts)
    (hbad : ∀ j, j < maxIts →
      ¬ attemptVal K n (oneNormM n A) (projector K n G) A j ≤ rsdRelTol n relTol eps) :
    RandomizedSignDivide K n returnQ maxIts relTol eps A G =
      (List.replicate maxIts A,
        .ok (attemptOut K n returnQ (oneNormM n A) (projector K n G) A (maxIts - 1))) := by
  unfold RandomizedSignDivide
  have h := rsdGo_exhaust K n returnQ (oneNormM n A) (rsdRelTol n relTol eps)
    (projector K n G) A hn maxIts 0 hits
    (fun j hj => by rw [Nat.zero_add]; exact hbad j hj)
  rw [Nat.zero_add] at h
  exact h

/-- `SpectralDivide` (real, no vectors) is exactly `RandomizedSignDivide`
with the defaults on the restored `A` and the shifted generator. -/
lemma spectralDivide_eq (K : Kernels) (sample : ℚ → ℚ → ℚ) (n : ℕ)
    (eps : ℚ) (A : Mat) :
    SpectralDivide K sample n eps A =
      RandomizedSignDivide K n false 10 0 eps A (sdGenerator sample n A) := by
  simp only [SpectralDivide, sdGenerator, sdShift, setDiag_restore]

/-- `SpectralDivide` (real, with vectors) is exactly `RandomizedSignDivide`
with `returnQ = true`, independently of the caller's `Q`. -/
lemma spectralDivideQ_eq (K : Kernels) (sample : ℚ → ℚ → ℚ) (n : ℕ)
    (eps : ℚ) (A Qin : Mat) :
    SpectralDivideQ K sample n eps A Qin =
      RandomizedSignDivide K n true 10 0 eps A (sdGenerator sample n A) := by
  simp only [SpectralDivideQ, sdGenerator, sdShift, setDiag_restore]

/-! ## Claim theorems (continued) -/

/-- C2: for `maxIts ≥ 1` (and an order-`n ≥ 2` matrix) the retry loop of
`RandomizedSignDivide` performs at most `maxIts` attempts and terminates
with a result; the effective tolerance is `relTol`, or `50·n·eps` when the
caller passes `0` (also the default); the loop stops at the first attempt
whose normalized partition value meets the tolerance, returning that
attempt's output; and when no attempt meets it the loop performs exactly
`maxIts` attempts and returns the last attempt's output without raising an
error. -/
theorem RandomizedSignDivide_loop_spec (K : Kernels) (n maxIts : ℕ)
    (returnQ : Bool) (relTol eps : ℚ) (A G : Mat)
    (hn : 2 ≤ n) (hits : 1 ≤ maxIts) :
    (RandomizedSignDivide K n returnQ maxIts relTol eps A G).1.length ≤ maxIts ∧
    (∃ res, (RandomizedSignDivide K n returnQ maxIts relTol eps A G).2 = .ok res) ∧
    rsdRelTol n relTol eps = (if relTol = 0 then 50 * n * eps else relTol) ∧
    (∀ k, k < maxIts →
      (∀ j, j < k →
        ¬ attemptVal K n (oneNormM n A) (projector K n G) A j ≤ rsdRelTol n relTol eps) →
      attemptVal K n (oneNormM n A) (projector K n G) A k ≤ rsdRelTol n relTol eps →
      RandomizedSignDivide K n returnQ maxIts relTol eps A G =
        (List.replicate (k + 1) A,
          .ok (attemptOut K n returnQ (oneNormM n A) (projector K n G) A k))) ∧
    ((∀ j, j < maxIts →
        ¬ attemptVal K n (oneNormM n A) (projector K n G) A j ≤ rsdRelTol n relTol eps) →
      RandomizedSignDivide K n returnQ maxIts relTol eps A G =
        (List.replicate maxIts A,
          .ok (attemptOut K n returnQ (oneNormM n A) (projector K n G) A (maxIts - 1)))) := by
  have hmain : (RandomizedSignDivide K n returnQ maxIts relTol eps A G).1.length ≤ maxIts ∧
      ∃ res, (RandomizedSignDivide K n returnQ maxIts relTol eps A G).2 = .ok res := by
    by_cases hex : ∃ k, k < maxIts ∧
        attemptVal K n (oneNormM n A) (projector K n G) A k ≤ rsdRelTol n relTol eps
    · obtain ⟨k, hklt, hpk⟩ := hex
      have hfin : ∃ m,
          attemptVal K n (oneNormM n A) (projector K n G) A m ≤ rsdRelTol n relTol eps :=
        ⟨k, hpk⟩
      have hlt : Nat.find hfin < maxIts := lt_of_le_of_lt (Nat.find_le hpk) hklt
      rw [rsd_found K n returnQ maxIts relTol eps A G hn (Nat.find hfin) hlt
        (fun j hj => Nat.find_min hfin hj) (Nat.find_spec hfin)]
      refine ⟨?_, _, rfl⟩
      simp only [List.length_replicate]
      omega
    · push_neg at hex
      rw [rsd_exhaust K n returnQ maxIts relTol eps A G hn hits
        (fun j hj => not_le.mpr (hex j hj))]
      refine ⟨?_, _, rfl⟩
      simp
  exact ⟨hmain.1, hmain.2, rfl,
    fun k hk hbad hgood => rsd_found K n returnQ maxIts relTol eps A G hn k hk hbad hgood,
    fun hbad => rsd_exhaust K n returnQ maxIts relTol eps A G hn hits hbad⟩

/-- Witness for C2: the attempt-count bound at a concrete run. -/
theorem RandomizedSignDivide_loop_spec_witness :
    (RandomizedSignDivide K0 2 false 1 1 eps0 diagA eyeM).1.length ≤ 1 :=
  (RandomizedSignDivide_loop_spec K0 2 1 false 1 eps0 diagA eyeM
    (by norm_num) (by norm_num)).1

/-- C5: every copy saved by `RandomizedSignDivide` immediately before an
attempt's similarity transform equals the original untransformed `A` — the
whole trace of saved copies is `A` repeated — so a failed non-final
attempt's restore `A = V` puts back exactly the original matrix and
retries start with no accumulated drift. -/
theorem RandomizedSignDivide_retry_restores_A (K : Kernels) (n maxIts : ℕ)
    (returnQ : Bool) (relTol eps : ℚ) (A G : Mat) :
    (RandomizedSignDivide K n returnQ maxIts relTol eps A G).1 =
      List.replicate (RandomizedSignDivide K n returnQ maxIts relTol eps A G).1.length A :=
  List.eq_replicate_iff.mpr ⟨rfl,
    fun _ hb => rsdGo_trace K n returnQ (oneNormM n A) (rsdRelTol n relTol eps)
      (projector K n G) maxIts A 0 _ hb⟩

/-- C10 (implicit): in the vectors-returning path `SpectralDivide(A, Q)`
the caller-supplied `Q` is dead on arrival — no output depends on its
entry value — and on success the returned `G` component (the matrix the
source leaves in the caller's `Q`) is the explicitly formed unitary factor
of the final attempt's randomized factorization. -/
theorem SpectralDivideQ_overwrites_Q (K : Kernels) (sample : ℚ → ℚ → ℚ)
    (n : ℕ) (eps : ℚ) (A Q1 Q2 : Mat) (hn : 2 ≤ n) :
    SpectralDivideQ K sample n eps A Q1 = SpectralDivideQ K sample n eps A Q2 ∧
    ∃ res : DivideOut, (SpectralDivideQ K sample n eps A Q1).2 = .ok res ∧
      1 ≤ (SpectralDivideQ K sample n eps A Q1).1.length ∧
      (SpectralDivideQ K sample n eps A Q1).1.length ≤ 10 ∧
      res = attemptOut K n true (oneNormM n A)
        (projector K n (sdGenerator sample n A)) A
        ((SpectralDivideQ K sample n eps A Q1).1.length - 1) ∧
      res.G = rurvQ K n (projector K n (sdGenerator sample n A))
        ((SpectralDivideQ K sample n eps A Q1).1.length - 1) := by
  refine ⟨rfl, ?_⟩
  rw [spectralDivideQ_eq]
  by_cases hex : ∃ k, k < 10 ∧
      attemptVal K n (oneNormM n A) (projector K n (sdGenerator sample n A)) A k ≤
        rsdRelTol n 0 eps
  · obtain ⟨k, hklt, hpk⟩ := hex
    have hfin : ∃ m,
        attemptVal K n (oneNormM n A) (projector K n (sdGenerator sample n A)) A m ≤
          rsdRelTol n 0 eps := ⟨k, hpk⟩
    have hlt : Nat.find hfin < 10 := lt_of_le_of_lt (Nat.find_le hpk) hklt
    rw [rsd_found K n true 10 0 eps A (sdGenerator sample n A) hn (Nat.find hfin) hlt
      (fun j hj => Nat.find_min hfin hj) (Nat.find_spec hfin)]
    refine ⟨_, rfl, by simp, ?_, ?_, ?_⟩
    · show (List.replicate (Nat.find hfin + 1) A,
          Except.ok (attemptOut K n true (oneNormM n A)
            (projector K n (sdGenerator sample n A)) A (Nat.find hfin))).1.length ≤ 10
      simp only [List.length_replicate]
      omega
    · simp
    · simp [attemptOut, rurvGout]
  · push_neg at hex
    rw [rsd_exhaust K n true 10 0 eps A (sdGenerator sample n A) hn (by norm_num)
      (fun j hj => not_le.mpr (hex j hj))]
    refine ⟨_, rfl, by simp, by simp, ?_, ?_⟩
    · simp
    · simp [attemptOut, rurvGout]

/-- Witness for C10 at a concrete matrix. -/
theorem SpectralDivideQ_overwrites_Q_witness :
    SpectralDivideQ K0 sample0 2 eps0 diagA eyeM =
      SpectralDivideQ K0 sample0 2 eps0 diagA matW :=
  (SpectralDivideQ_overwrites_Q K0 sample0 2 eps0 diagA eyeM matW (by norm_num)).1

/-- C9 (amended): `SpectralDivide` has no early-return path — even when
the off-diagonal infinity norm is exactly `0` it draws the shift from the
radius-`0` disk (`SampleBall` is called with radius `0.001 × 0 = 0`) and
runs the full `RandomizedSignDivide`, performing at least one complete
sign-divide attempt. -/
theorem SpectralDivide_zeroOffDiag_runs_full_loop (K : Kernels)
    (sample : ℚ → ℚ → ℚ) (n : ℕ) (eps : ℚ) (A : Mat)
    (hz : infNormM n (setDiagAll n 0 A) = 0) :
    1 ≤ (SpectralDivide K sample n eps A).1.length ∧
    SpectralDivide K sample n eps A =
      RandomizedSignDivide K n false 10 0 eps A
        (updateDiag n (sample (-(traceM n A / n)) 0) A) := by
  constructor
  · rw [spectralDivide_eq]
    exact rsdGo_len_pos K n false (oneNormM n A) (rsdRelTol n 0 eps)
      (projector K n (sdGenerator sample n A)) 10 A 0 (by norm_num)
  · rw [spectralDivide_eq, sdGenerator, sdShift, hz, mul_zero]

/-- The concrete diagonal matrix has off-diagonal infinity norm exactly
zero. -/
lemma diagA_offdiag_zero : infNormM 2 (setDiagAll 2 0 diagA) = 0 := by
  norm_num [infNormM, setDiagAll, diagA, qabs, qmax,
    show List.range 2 = [0, 1] from rfl, Finset.sum_range_succ,
    Finset.sum_range_zero]

/-- With the identity kernels, the transformed matrix's bottom-left entry
is zero for the concrete diagonal input. -/
lemma rurv_diagA_entry :
    rurvA K0 2 (projector K0 2 (sdGenerator sample0 2 diagA)) 0 diagA 1 0 = 0 := by
  norm_num [rurvA, rurvQ, K0, matMul, conjT, eyeM, diagA,
    Finset.sum_range_succ, Finset.sum_range_zero]

/-- The first attempt's normalized partition value is exactly zero on the
concrete diagonal input. -/
lemma attemptVal_diagA_zero :
    attemptVal K0 2 (oneNormM 2 diagA)
      (projector K0 2 (sdGenerator sample0 2 diagA)) diagA 0 = 0 := by
  have h1 : attemptVal K0 2 (oneNormM 2 diagA)
      (projector K0 2 (sdGenerator sample0 2 diagA)) diagA 0
      = colSumSeq 2 (rurvA K0 2 (projector K0 2 (sdGenerator sample0 2 diagA)) 0 diagA) 0
        / oneNormM 2 diagA := rfl
  rw [h1, colSumSeq, Finset.sum_Ico_eq_sum_range]
  norm_num [Finset.sum_range_one, rurv_diagA_entry, qabs]

/-- Witness for C9's amended theorem at a concrete diagonal matrix. -/
theorem SpectralDivide_zeroOffDiag_runs_full_loop_witness :
    1 ≤ (SpectralDivide K0 sample0 2 eps0 diagA).1.length ∧
    SpectralDivide K0 sample0 2 eps0 diagA =
      RandomizedSignDivide K0 2 false 10 0 eps0 diagA
        (updateDiag 2 (sample0 (-(traceM 2 diagA / 2)) 0) diagA) :=
  SpectralDivide_zeroOffDiag_runs_full_loop K0 sample0 2 eps0 diagA diagA_offdiag_zero

/-- Counterexample for C9: on a matrix whose off-diagonal part is exactly
zero, `SpectralDivide` does not return early — it performs a full
randomized sign-divide attempt (the saved-copy trace has length `1`, not
`0`), and the near-zero achieved value arises from that attempt meeting
the tolerance check, not from any early exit. -/
theorem SpectralDivide_zeroOffDiag_counterexample :
    infNormM 2 (setDiagAll 2 0 diagA) = 0 ∧
    (SpectralDivide K0 sample0 2 eps0 diagA).1.length = 1 ∧
    ∃ res, (SpectralDivide K0 sample0 2 eps0 diagA).2 = .ok res ∧
      res.value = 0 ∧ res.index = 1 := by
  have hstep := rsd_found K0 2 false 10 0 eps0 diagA (sdGenerator sample0 2 diagA)
    (by norm_num) 0 (by norm_num)
    (fun j hj => absurd hj (by omega))
    (by rw [attemptVal_diagA_zero]; norm_num [rsdRelTol, eps0])
  have hsd : SpectralDivide K0 sample0 2 eps0 diagA =
      (List.replicate 1 diagA,
        .ok (attemptOut K0 2 false (oneNormM 2 diagA)
          (projector K0 2 (sdGenerator sample0 2 diagA)) diagA 0)) := by
    rw [spectralDivide_eq]
    exact hstep
  refine ⟨diagA_offdiag_zero, by rw [hsd]; simp, _, by rw [hsd], ?_, ?_⟩
  · exact attemptVal_diagA_zero
  · rfl

/-- The sequential `ComputePartition` can fail, but never with a
precondition report: the source contains no precondition check. -/
lemma cp_seq_no_precond (n : ℕ) (A : Mat) :
    ComputePartitionSeq n A ≠ .error .precondViolation := by
  unfold ComputePartitionSeq
  by_cases h0 : n = 0
  · simp [h0]
  · by_cases h1 : n = 1 <;> simp [h0, h1]

/-- The distributed `ComputePartition` never reports a precondition
violation either. -/
lemma cp_dist_no_precond (r c n : ℕ) (A : Mat) :
    ComputePartitionDist r c n A ≠ .error .precondViolation := by
  unfold ComputePartitionDist
  by_cases h0 : n = 0
  · simp [h0]
  · by_cases h1 : n = 1 <;> simp [h0, h1]

/-- The retry loop never reports a precondition violation. -/
lemma rsdGo_no_precond (K : Kernels) (n : ℕ) (returnQ : Bool)
    (oneA relTol : ℚ) (S : Mat) :
    ∀ fuel A it,
      (rsdGo K n returnQ oneA relTol S A it fuel).2 ≠ .error .precondViolation := by
  intro fuel
  induction fuel with
  | zero =>
    intro A it
    simp [rsdGo]
  | succ f ih =>
    intro A it
    cases hcp : ComputePartitionSeq n (rurvA K n S it A) with
    | error e =>
      have hne := cp_seq_no_precond n (rurvA K n S it A)
      rw [hcp] at hne
      simp only [rsdGo, hcp]
      simpa using hne
    | ok part =>
      by_cases hv : part.value / oneA ≤ relTol ∨ f = 0
      · simp [rsdGo, hcp, hv]
      · simpa [rsdGo, hcp, hv] using ih A (it + 1)

/-- `RandomizedSignDivide` never reports a precondition violation. -/
lemma rsd_no_precond (K : Kernels) (n : ℕ) (returnQ : Bool)
    (maxIts : ℕ) (relTol eps : ℚ) (A G : Mat) :
    (RandomizedSignDivide K n returnQ maxIts relTol eps A G).2 ≠
      .error .precondViolation :=
  rsdGo_no_precond K n returnQ (oneNormM n A) (rsdRelTol n relTol eps)
    (projector K n G) maxIts A 0

/-- `SignDivide` never reports a precondition violation. -/
lemma signDivide_no_precond (K : Kernels) (n : ℕ) (returnQ : Bool) (A G : Mat) :
    SignDivide K n returnQ A G ≠ .error .precondViolation := by
  have hne := cp_seq_no_precond n (matMul n (conjT (K.pivQ (projector K n G)))
    (matMul n A (K.pivQ (projector K n G))))
  simp only [SignDivide]
  cases hcp : ComputePartitionSeq n (matMul n (conjT (K.pivQ (projector K n G)))
      (matMul n A (K.pivQ (projector K n G)))) with
  | error e =>
    rw [hcp] at hne
    simpa [hcp] using hne
  | ok part => simp [hcp]

/-- The recursive driver never reports a precondition violation. -/
lemma sdcGo_no_precond (K : Kernels) (sample : ℚ → ℚ → ℚ) (eps : ℚ)
    (base : ℕ → Mat → Mat) (cutoff : ℤ) :
    ∀ fuel n A, sdcGo K sample eps base cutoff fuel n A ≠ .error .precondViolation := by
  intro fuel
  induction fuel with
  | zero => intro n A; simp [sdcGo]
  | succ f ih =>
    intro n A
    by_cases hc : (n : ℤ) ≤ cutoff
    · simp [sdcGo, hc]
    · cases hsp : (SpectralDivide K sample n eps A).2 with
      | error e =>
        have hne : (SpectralDivide K sample n eps A).2 ≠ .error .precondViolation := by
          rw [spectralDivide_eq]
          exact rsd_no_precond K n false 10 0 eps A (sdGenerator sample n A)
        rw [hsp] at hne
        simp only [sdcGo, hsp, if_neg hc]
        simpa using hne
      | ok part =>
        simp only [sdcGo, hsp, if_neg hc]
        cases h1 : sdcGo K sample eps base cutoff f part.index.toNat part.A with
        | error e1 =>
          have hr := ih part.index.toNat part.A
          rw [h1] at hr
          simpa [h1] using hr
        | ok TL =>
          cases h2 : sdcGo K sample eps base cutoff f (n - part.index.toNat)
              (shiftBlock part.index.toNat part.A) with
          | error e2 =>
            have hr := ih (n - part.index.toNat) (shiftBlock part.index.toNat part.A)
            rw [h2] at hr
            simpa [h1, h2] using hr
          | ok BR => simp [h1, h2]

/-- A computation that is not the precondition error reports no
precondition violation. -/
lemma precondReported_false {α : Type} (x : Except Err α)
    (h : x ≠ .error .precondViolation) : precondReported x = false := by
  cases x with
  | ok a => rfl
  | error e =>
    cases e with
    | precondViolation => exact absurd rfl h
    | missingReturn => rfl
    | oobAccess => rfl
    | uninitPart => rfl
    | fuelOut => rfl

/-- C3 (amended): the core contains no precondition validation at all — no
call into `SDC`, `SignDivide`, `RandomizedSignDivide` or either
`ComputePartition` overload ever produces a precondition report; a violated
precondition (e.g. `cutoff < 1`) is simply not detected before numerical
work begins. -/
theorem SDC_no_precondition_checks :
    (∀ (K : Kernels) (sample : ℚ → ℚ → ℚ) (eps : ℚ) (base : ℕ → Mat → Mat)
      (cutoff : ℤ) (fuel n : ℕ) (A : Mat),
      precondReported (sdcGo K sample eps base cutoff fuel n A) = false) ∧
    (∀ (K : Kernels) (n : ℕ) (returnQ : Bool) (A G : Mat),
      precondReported (SignDivide K n returnQ A G) = false) ∧
    (∀ (K : Kernels) (n : ℕ) (returnQ : Bool) (maxIts : ℕ) (relTol eps : ℚ) (A G : Mat),
      precondReported (RandomizedSignDivide K n returnQ maxIts relTol eps A G).2 = false) ∧
    (∀ (n : ℕ) (A : Mat), precondReported (ComputePartitionSeq n A) = false) ∧
    (∀ (r c n : ℕ) (A : Mat), precondReported (ComputePartitionDist r c n A) = false) :=
  ⟨fun K sample eps base cutoff fuel n A =>
      precondReported_false _ (sdcGo_no_precond K sample eps base cutoff fuel n A),
   fun K n returnQ A G => precondReported_false _ (signDivide_no_precond K n returnQ A G),
   fun K n returnQ maxIts relTol eps A G =>
      precondReported_false _ (rsd_no_precond K n returnQ maxIts relTol eps A G),
   fun n A => precondReported_false _ (cp_seq_no_precond n A),
   fun r c n A => precondReported_false _ (cp_dist_no_precond r c n A)⟩

/-- Counterexample for C3: calling `SDC` with the violated precondition
`cutoff = 0 < 1` on a 1×1 matrix is not reported before numerical work —
the call proceeds into `SpectralDivide`, performs a full sign-divide
attempt (the saved-copy trace of the randomized loop has length `1`), and
then dies on the out-of-bounds vector access inside `ComputePartition`,
an error distinct from any precondition report. -/
theorem SDC_failFast_counterexample :
    SDC K0 sample0 eps0 base0 0 1 oneByOne = .error .oobAccess ∧
    precondReported (SDC K0 sample0 eps0 base0 0 1 oneByOne) = false ∧
    (SpectralDivide K0 sample0 1 eps0 oneByOne).1.length = 1 := by
  refine ⟨rfl, rfl, rfl⟩

/-- C6: after the two recursive calls of the Schur-vector-forming `SDC`
return their accumulators `Z_TL` and `Z_BR`, the stitch step — in both the
sequential and the distributed overload — sets `Q_left` to
(old `Q_left`)·`Z_TL` and `Q_right` to (old `Q_right`)·`Z_BR`, and, when
the off-diagonal block is requested, `ATR` to
`Z_TL`ᴴ·(old `ATR`)·`Z_BR`. -/
theorem SDC_stitch_updates (R : Type) [CommRing R] (conj : R → R) (k m : ℕ)
    (formATR : Bool) (QL QR ATR ZT ZB : ℕ → ℕ → R) :
    stitchSeq R conj k m formATR QL QR ATR ZT ZB =
      (mulR R k QL ZT, mulR R m QR ZB,
        if formATR then mulR R k (adjR R conj ZT) (mulR R m ATR ZB) else ATR) ∧
    stitchDist R conj k m formATR QL QR ATR ZT ZB =
      (mulR R k QL ZT, mulR R m QR ZB,
        if formATR then mulR R k (adjR R conj ZT) (mulR R m ATR ZB) else ATR) := by
  constructor <;> cases formATR <;> simp [stitchSeq, stitchDist, mulR_mulR]

/-- Witness for C6 at `R = ℚ`, `conj = id`, concrete 2×2 blocks. -/
theorem SDC_stitch_updates_witness :
    stitchSeq ℚ id 1 1 true matV diagA matW eyeM oneByOne =
      (mulR ℚ 1 matV eyeM, mulR ℚ 1 diagA oneByOne,
        if true then mulR ℚ 1 (adjR ℚ id eyeM) (mulR ℚ 1 matW oneByOne)
        else matW) ∧
    stitchDist ℚ id 1 1 true matV diagA matW eyeM oneByOne =
      (mulR ℚ 1 matV eyeM, mulR ℚ 1 diagA oneByOne,
        if true then mulR ℚ 1 (adjR ℚ id eyeM) (mulR ℚ 1 matW oneByOne)
        else matW) :=
  SDC_stitch_updates ℚ id 1 1 true matV diagA matW eyeM oneByOne

/-- C7: `SpectralDivide` builds the generator as a copy of `A` with the
drawn shift (`SampleBall` invoked with radius `0.001 ×` the off-diagonal
infinity norm and center `−trace(A)/n`) added to its diagonal — for the
complex field additionally scaled by the random unit rotation `gamma` —
and the temporary zeroing of `A`'s diagonal used to measure that norm is
undone, so `A` holds exactly its original entries when
`RandomizedSignDivide` is invoked on it. -/
theorem SpectralDivide_generator_construction (K : Kernels)
    (sample : ℚ → ℚ → ℚ) (n : ℕ) (eps : ℚ) (A Qin : Mat)
    (absO : QC → ℚ) (sampleC : QC → ℚ → QC) (gamma : QC) (Ac : MatC) :
    SpectralDivide K sample n eps A =
      RandomizedSignDivide K n false 10 0 eps A (sdGenerator sample n A) ∧
    SpectralDivideQ K sample n eps A Qin =
      RandomizedSignDivide K n true 10 0 eps A (sdGenerator sample n A) ∧
    SpectralDivideCGen absO sampleC gamma n Ac =
      (Ac, scaleC gamma (updateDiagC n
        (sampleC (qcNeg (qcDivNat (traceC n Ac) n))
          (1 / 1000 * infNormC absO n (setDiagAllC n ⟨0, 0⟩ Ac))) Ac)) := by
  refine ⟨?_, ?_, ?_⟩
  · simp only [SpectralDivide, sdGenerator, sdShift, setDiag_restore]
  · simp only [SpectralDivideQ, sdGenerator, sdShift, setDiag_restore]
  · simp only [SpectralDivideCGen, setDiagC_restore]

end Elemental
